import Mathlib

/-!
Verification development for the PDF search application.

The repository is a full-stack PDF search tool: a Python/FastAPI backend
builds a TF-IDF index over extracted document texts and ranks documents by
cosine similarity against a query, and a React/TypeScript frontend uploads
files, issues queries and renders ranked results with highlighted snippets.

The search core (`backend/app/search_engine.py`) is not present in the
source snapshot; only the frontend sources and the documentation are.  The
core is therefore modelled here from the specification, while the frontend
components (`types.ts`, `SearchResults.tsx`) are embedded directly from
their TypeScript sources.

Texts are modelled as lists of characters, JavaScript/Python numbers as
rationals, and the two real-valued primitives of the core (natural
logarithm and square root) as explicit function parameters, so that every
definition stays executable.
-/

/-! ## Frontend data model, from `src/frontend/src/types.ts` -/

/-- The `SearchResult` interface declared in `src/frontend/src/types.ts`
(lines 17-22): `pdf_id: string; filename: string; confidence_score: number;
snippet: string`. -/
structure SearchResult where
  pdf_id : String
  filename : String
  confidence_score : ℚ
  snippet : String
deriving DecidableEq

/-- The field names of the declared `SearchResult` interface, in
declaration order, from `src/frontend/src/types.ts` lines 17-22. -/
def searchResultFields : List String :=
  ["pdf_id", "filename", "confidence_score", "snippet"]

/-- A JavaScript value as far as the frontend result rendering is
concerned: a string, a number, or nothing. -/
inductive JSVal where
  | str : String → JSVal
  | num : ℚ → JSVal
deriving DecidableEq

/-- A JavaScript object, modelled as an association list of named fields;
reading an absent field yields `none` (JavaScript `undefined`). -/
def jsRead (obj : List (String × JSVal)) (name : String) : Option JSVal :=
  (obj.find? (fun kv => kv.1 == name)).map Prod.snd

/-- Extract a number from an optional JavaScript value; anything that is
not a number behaves as `undefined` for numeric comparisons. -/
def asNum : Option JSVal → Option ℚ
  | some (JSVal.num q) => some q
  | _ => none

/-- JavaScript `v >= c` on a number-or-undefined value: comparison with
`undefined` is false (it converts to NaN). -/
def jsGe (v : Option ℚ) (c : ℚ) : Bool :=
  match v with
  | none => false
  | some x => decide (c ≤ x)

/-- JavaScript `v <= c` on a number-or-undefined value: comparison with
`undefined` is false (it converts to NaN). -/
def jsLe (v : Option ℚ) (c : ℚ) : Bool :=
  match v with
  | none => false
  | some x => decide (x ≤ c)

/-- `formatSentiment` from `src/frontend/src/components/SearchResults.tsx`
(lines 28-32): `>= 0.05` is Positive, `<= -0.05` is Negative, anything
else (including `undefined`) is Neutral. -/
def formatSentiment (score : Option ℚ) : String :=
  if jsGe score (1/20) then "Positive"
  else if jsLe score (-(1/20)) then "Negative"
  else "Neutral"

/-- `getSentimentClass` from `SearchResults.tsx` (lines 34-38). -/
def getSentimentClass (score : Option ℚ) : String :=
  if jsGe score (1/20) then "positive"
  else if jsLe score (-(1/20)) then "negative"
  else "neutral"

/-- The sentiment badge text rendered by the `SearchResults` component
(line 90): `formatSentiment(result.sentiment_score)`, where the field read
happens on the result object. -/
def sentimentBadgeText (result : List (String × JSVal)) : String :=
  formatSentiment (asNum (jsRead result "sentiment_score"))

/-- The sentiment badge CSS class rendered by the `SearchResults`
component (line 89): `getSentimentClass(result.sentiment_score)`. -/
def sentimentBadgeClass (result : List (String × JSVal)) : String :=
  getSentimentClass (asNum (jsRead result "sentiment_score"))

lemma jsRead_eq_none_of_not_mem (obj : List (String × JSVal)) (name : String)
    (h : name ∉ obj.map Prod.fst) : jsRead obj name = none := by
  unfold jsRead
  rw [List.find?_eq_none.2]
  · rfl
  intro kv hkv
  simp only [beq_iff_eq]
  intro he
  exact h (he ▸ List.mem_map_of_mem Prod.fst hkv)

/-! ## Snippet highlighting, from `SearchResults.tsx` `highlightSnippet` -/

/-- Lowercase a character list, modelling JavaScript `toLowerCase()`. -/
def lowerStr (s : List Char) : List Char := s.map Char.toLower

/-- Split on runs of whitespace, modelling JavaScript `split(/\s+/)`:
a leading run produces a leading empty part and a trailing run a trailing
empty part.  `pending` accumulates the current part in reverse, and
`skipping` records that the previous character belonged to a whitespace
run (so further whitespace extends the same separator). -/
def wsSplitGo (skipping : Bool) (pending : List Char) :
    List Char → List (List Char)
  | [] => [pending.reverse]
  | c :: rest =>
    if c.isWhitespace then
      if skipping then wsSplitGo true [] rest
      else pending.reverse :: wsSplitGo true [] rest
    else wsSplitGo false (c :: pending) rest

/-- The query terms used by `highlightSnippet` (line 41):
`query.toLowerCase().split(/\s+/).filter((t) => t.length > 1)`. -/
def queryTerms (query : List Char) : List (List Char) :=
  (wsSplitGo false [] (lowerStr query)).filter (fun t => decide (1 < t.length))

/-- The first (in alternation order) nonempty term that matches
case-insensitively at the head of `s` — the leftmost-alternative rule of
the regex `(term1|term2|...)` with the `i` flag; metacharacter escaping in
the source makes every term a literal string. -/
def findTerm (terms : List (List Char)) (s : List Char) : Option (List Char) :=
  terms.find? (fun t => !t.isEmpty && (s.take t.length).map Char.toLower == lowerStr t)

/-- Split `s` on every case-insensitive occurrence of a term, keeping the
matched separators in the output — modelling JavaScript
`snippet.split(pattern)` where `pattern` is a regex made of one capture
group over the alternation of all terms (captured separators are included
in the split result).  `pending` accumulates the current unmatched part in
reverse; `skip` counts characters of an already-emitted match that remain
to be consumed (the regex engine continues after the end of a match). -/
def termSplitGo (terms : List (List Char)) (skip : Nat) (pending : List Char) :
    List Char → List (List Char)
  | [] => [pending.reverse]
  | c :: rest =>
    match skip with
    | Nat.succ k => termSplitGo terms k pending rest
    | 0 =>
      match findTerm terms (c :: rest) with
      | some t =>
        pending.reverse :: (c :: rest).take t.length ::
          termSplitGo terms (t.length - 1) [] rest
      | none => termSplitGo terms 0 (c :: pending) rest

/-- The match test of `highlightSnippet` (line 49):
`terms.some((term) => part.toLowerCase() === term.toLowerCase())`. -/
def isMatchTerm (terms : List (List Char)) (part : List Char) : Bool :=
  terms.any (fun term => lowerStr part == lowerStr term)

/-- The value `highlightSnippet` returns: either the snippet unchanged
(when no query term of length greater than one exists) or a list of parts,
each tagged with whether it is rendered inside a `mark` element. -/
inductive HL where
  | raw : List Char → HL
  | parts : List (List Char × Bool) → HL
deriving DecidableEq

/-- `highlightSnippet` from `SearchResults.tsx` (lines 40-56): derive the
terms from the query, return the snippet unchanged if there are none,
otherwise split the snippet on term occurrences and tag each part by the
match test. -/
def highlightSnippet (snippet query : List Char) : HL :=
  let terms := queryTerms query
  if terms.isEmpty then HL.raw snippet
  else HL.parts ((termSplitGo terms 0 [] snippet).map (fun p => (p, isMatchTerm terms p)))

/-- The text content of a highlighting result: concatenation of all parts. -/
def hlText : HL → List Char
  | HL.raw s => s
  | HL.parts ps => (ps.map Prod.fst).flatten

/-- The tagged parts of a highlighting result. -/
def hlParts : HL → List (List Char × Bool)
  | HL.raw _ => []
  | HL.parts ps => ps

lemma findTerm_some_ne_nil {terms : List (List Char)} {s t : List Char}
    (h : findTerm terms s = some t) : t ≠ [] := by
  have hp := List.find?_some h
  rw [Bool.and_eq_true] at hp
  intro he
  subst he
  simp at hp

lemma termSplitGo_flatten (terms : List (List Char)) :
    ∀ (s : List Char) (skip : Nat) (pending : List Char),
      (termSplitGo terms skip pending s).flatten = pending.reverse ++ s.drop skip := by
  intro s
  induction s with
  | nil =>
    intro skip pending
    simp [termSplitGo]
  | cons c rest ih =>
    intro skip pending
    match skip with
    | Nat.succ k =>
      simp only [termSplitGo]
      rw [ih k pending]
      rfl
    | 0 =>
      rcases hf : findTerm terms (c :: rest) with _ | t
      · simp only [termSplitGo, hf]
        rw [ih 0 (c :: pending)]
        simp
      · have htne : t ≠ [] := findTerm_some_ne_nil hf
        have hlen : 0 < t.length := List.length_pos.2 htne
        obtain ⟨n, hn⟩ : ∃ n, t.length = n + 1 :=
          ⟨t.length - 1, (Nat.succ_pred_eq_of_pos hlen).symm⟩
        simp only [termSplitGo, hf, hn, Nat.add_sub_cancel]
        simp [ih n [], List.take_succ_cons, List.take_append_drop]

/-! ## The search core, modelled from the specification

`backend/app/search_engine.py` is not part of the source snapshot, so the
Tokenizer/Normalizer, the Term-Weight Index Builder, the Similarity Ranker
and the Snippet Locator below are modelled from the specification text
(sections 4.1-4.4). -/

/-- Modelled from the spec: collect the maximal alphanumeric runs of a
character list — the missing core tokenizer splits its input "on
non-alphanumeric boundaries" (section 4.1), so the candidate tokens are
exactly the maximal runs of alphanumeric characters.  `cur` accumulates
the current run in reverse. -/
def runsGo (cur : List Char) : List Char → List (List Char)
  | [] => if cur.isEmpty then [] else [cur.reverse]
  | c :: rest =>
    if c.isAlphanum then runsGo (c :: cur) rest
    else if cur.isEmpty then runsGo [] rest
    else cur.reverse :: runsGo [] rest

/-- Modelled from the spec: the maximal alphanumeric runs of a character
list (section 4.1). -/
def alnumRuns (s : List Char) : List (List Char) := runsGo [] s

/-- Modelled from the spec: the missing core tokenizer (section 4.1) —
lowercase, split on non-alphanumeric boundaries, drop tokens of length at
most one, no stemming. -/
def tokenize (s : List Char) : List (List Char) :=
  (alnumRuns (lowerStr s)).filter (fun t => decide (1 < t.length))

/-- Modelled from the spec: a document as the core sees it — an opaque
identifier and the full extracted text (section 3). -/
structure Document where
  id : String
  text : List Char
deriving DecidableEq

instance : Inhabited Document := ⟨⟨"", []⟩⟩

/-- A token of the core: a normalized character list. -/
abbrev Token := List Char

/-- Modelled from the spec: the corpus vocabulary — the distinct tokens
across all documents' normalized token sequences (section 4.2), in first
occurrence order. -/
def vocab (corpus : List Document) : List Token :=
  ((corpus.map (fun d => tokenize d.text)).flatten).dedup

/-- Modelled from the spec: the document frequency of a token — the number
of documents containing it at least once (section 4.2). -/
def dfCount (corpus : List Document) (t : Token) : Nat :=
  corpus.countP (fun d => (tokenize d.text).contains t)

/-- Modelled from the spec: term frequency — count of the token in the
sequence divided by the total token count; a zero-token document yields 0
because division by zero is 0 in `ℚ` (section 4.2). -/
def tf (tokens : List Token) (t : Token) : ℚ :=
  ((tokens.count t : ℚ)) / ((tokens.length : ℚ))

/-- Modelled from the spec: smoothed inverse document frequency
`log((1 + N) / (1 + df(t))) + 1` (section 4.2).  The real-valued natural
logarithm of the missing implementation is abstracted as the parameter
`log`. -/
def idf (log : ℚ → ℚ) (corpus : List Document) (t : Token) : ℚ :=
  log ((1 + (corpus.length : ℚ)) / (1 + (dfCount corpus t : ℚ))) + 1

/-- Modelled from the spec: a document's weight vector, elementwise
TF times IDF (section 4.2). -/
def docVec (log : ℚ → ℚ) (corpus : List Document) (d : Document) (t : Token) : ℚ :=
  tf (tokenize d.text) t * idf log corpus t

/-- Modelled from the spec: the query weight vector, built identically to
a document vector over the query's own tokens (section 4.2). -/
def queryVec (log : ℚ → ℚ) (corpus : List Document) (q : List Char) (t : Token) : ℚ :=
  tf (tokenize q) t * idf log corpus t

/-- Modelled from the spec: the dot product of two weight vectors over the
corpus vocabulary; tokens outside the vocabulary contribute zero
(section 4.2). -/
def dotV (voc : List Token) (u v : Token → ℚ) : ℚ :=
  (voc.map (fun t => u t * v t)).sum

/-- Modelled from the spec: clamp a similarity to `[0,1]` (section 4.3). -/
def clamp01 (x : ℚ) : ℚ := max 0 (min 1 x)

/-- Modelled from the spec: cosine similarity — dot product divided by the
product of the two Euclidean norms, defined as 0 when either norm is zero
(section 4.3).  A norm is zero exactly when the self dot product is zero,
and the real-valued square root of the missing implementation is
abstracted as the parameter `sqrt`. -/
def cosineSim (sqrt : ℚ → ℚ) (voc : List Token) (u v : Token → ℚ) : ℚ :=
  if dotV voc u u = 0 ∨ dotV voc v v = 0 then 0
  else dotV voc u v / (sqrt (dotV voc u u) * sqrt (dotV voc v v))

/-- Modelled from the spec: the clamped similarity score of one document
against the query (sections 4.2-4.3). -/
def scoreDoc (log sqrt : ℚ → ℚ) (corpus : List Document) (q : List Char)
    (d : Document) : ℚ :=
  clamp01 (cosineSim sqrt (vocab corpus) (docVec log corpus d) (queryVec log corpus q))

/-- Modelled from the spec: a scored document of the ranker, keeping its
original insertion position `idx` in the corpus for stable tie-breaking
(section 4.3). -/
structure Ranked where
  idx : Nat
  doc : Document
  score : ℚ
deriving DecidableEq

/-- Modelled from the spec: every corpus document with its original index
and its clamped similarity score, in corpus order. -/
def scoredList (log sqrt : ℚ → ℚ) (corpus : List Document) (q : List Char) :
    List Ranked :=
  corpus.enum.map (fun p => ⟨p.1, p.2, scoreDoc log sqrt corpus q p.2⟩)

/-- Modelled from the spec: the candidates of the ranker — only documents
with similarity strictly greater than 0 are retained (section 4.3). -/
def candidates (log sqrt : ℚ → ℚ) (corpus : List Document) (q : List Char) :
    List Ranked :=
  (scoredList log sqrt corpus q).filter (fun r => decide (0 < r.score))

/-- Modelled from the spec: the ranker's order — descending similarity,
ties broken by the original insertion order (section 4.3). -/
def rankRel (a b : Ranked) : Prop :=
  b.score < a.score ∨ (a.score = b.score ∧ a.idx ≤ b.idx)

instance : DecidableRel rankRel := fun a b => by
  unfold rankRel
  infer_instance

instance : IsTotal Ranked rankRel := by
  constructor
  intro a b
  rcases lt_trichotomy a.score b.score with h | h | h
  · exact Or.inr (Or.inl h)
  · rcases Nat.le_total a.idx b.idx with hi | hi
    · exact Or.inl (Or.inr ⟨h, hi⟩)
    · exact Or.inr (Or.inr ⟨h.symm, hi⟩)
  · exact Or.inl (Or.inl h)

instance : IsTrans Ranked rankRel := by
  constructor
  intro a b c hab hbc
  rcases hab with h1 | ⟨he1, hi1⟩
  · rcases hbc with h2 | ⟨he2, _⟩
    · exact Or.inl (h2.trans h1)
    · exact Or.inl (he2 ▸ h1)
  · rcases hbc with h2 | ⟨he2, hi2⟩
    · exact Or.inl (by rw [he1]; exact h2)
    · exact Or.inr ⟨he1.trans he2, hi1.trans hi2⟩

/-- Modelled from the spec: the ranker's ordered output — candidates
sorted by descending similarity with stable tie-breaking (section 4.3). -/
def rankDocs (log sqrt : ℚ → ℚ) (corpus : List Document) (q : List Char) :
    List Ranked :=
  List.insertionSort rankRel (candidates log sqrt corpus q)

/-- Modelled from the spec: the snippet locator configuration — context
radius around a match and the fallback excerpt length (section 4.4). -/
structure SnipConfig where
  context_radius : Nat
  fallback_length : Nat
deriving DecidableEq

/-- The distance between two natural positions. -/
def natDist (a b : Nat) : Nat := max a b - min a b

/-- Modelled from the spec: whether token `t` occurs in `text` at
character position `i` as a case-insensitive whole-word boundary match
(section 4.4): the slice matches case-insensitively and the characters
immediately before and after, when they exist, are not alphanumeric. -/
def occAt (text : List Char) (t : Token) (i : Nat) : Bool :=
  ((text.drop i).take t.length).map Char.toLower == lowerStr t
  && (i == 0 || !(Char.isAlphanum (text.getD (i - 1) ' ')))
  && (decide (text.length ≤ i + t.length) || !(Char.isAlphanum (text.getD (i + t.length) ' ')))

/-- Modelled from the spec: every occurrence of any query token in the
document text, as a `(start, end)` character span, in increasing start
order (section 4.4). -/
def occurrences (text : List Char) (tokens : List Token) : List (Nat × Nat) :=
  (List.range text.length).flatMap (fun i =>
    (tokens.filter (fun t => occAt text t i)).map (fun t => (i, i + t.length)))

/-- Modelled from the spec: the number of other occurrences whose start
position lies within the context radius of the start position of `o`
(section 4.4). -/
def occDensity (radius : Nat) (occs : List (Nat × Nat)) (o : Nat × Nat) : Nat :=
  (occs.filter (fun p => decide (p ≠ o) && decide (natDist p.1 o.1 ≤ radius))).length

/-- One step of the deterministic argmax: keep the current best, replacing
it only on a strictly larger key (so the earliest maximum wins). -/
def argmaxStep (k : Nat × Nat → Nat) (acc : Option (Nat × Nat))
    (p : Nat × Nat) : Option (Nat × Nat) :=
  match acc with
  | none => some p
  | some b => if k b < k p then some p else some b

/-- Modelled from the spec: the first element of maximal key, the
deterministic argmax used to pick the densest cluster center
(section 4.4). -/
def argmaxBy (k : Nat × Nat → Nat) (l : List (Nat × Nat)) : Option (Nat × Nat) :=
  l.foldl (argmaxStep k) none

/-- Modelled from the spec: the excerpt window around a chosen cluster
center — the fixed radius on each side of the center, clamped to the
document start and end, together with the occurrence spans that fall
inside the window, translated to excerpt-local coordinates
(section 4.4). -/
def mkWindow (radius : Nat) (text : List Char) (occs : List (Nat × Nat))
    (c : Nat × Nat) : List Char × List (Nat × Nat) :=
  let lo := c.1 - radius
  let hi := min (c.1 + radius) text.length
  ((text.drop lo).take (hi - lo),
    (occs.filter (fun p => decide (lo ≤ p.1) && decide (p.2 ≤ hi))).map
      (fun p => (p.1 - lo, p.2 - lo)))

/-- Modelled from the spec: the missing Snippet Locator (section 4.4) —
scan for case-insensitive whole-word occurrences of the query tokens; with
no occurrence return the first `fallback_length` characters, otherwise
return the window around the occurrence with the most other occurrences
within the context radius. -/
def locateSnippet (cfg : SnipConfig) (text : List Char) (tokens : List Token) :
    List Char × List (Nat × Nat) :=
  let occs := occurrences text tokens
  match argmaxBy (occDensity cfg.context_radius occs) occs with
  | none => (text.take cfg.fallback_length, [])
  | some c => mkWindow cfg.context_radius text occs c

/-- Modelled from the spec: a scored search result as the core returns it
to the request-handling collaborator (sections 3 and 6). -/
structure ScoredResult where
  document_id : String
  score : ℚ
  snippet : List Char
  match_spans : List (Nat × Nat)
deriving DecidableEq

/-- Modelled from the spec: the full core search — build the weight
vectors over the current corpus, score and rank the documents, and attach
the best-matching excerpt of each ranked document (section 2, control
flow). -/
def coreSearch (log sqrt : ℚ → ℚ) (cfg : SnipConfig) (corpus : List Document)
    (q : List Char) : List ScoredResult :=
  let qTokens := (tokenize q).dedup
  (rankDocs log sqrt corpus q).map (fun r =>
    let sn := locateSnippet cfg r.doc.text qTokens
    ⟨r.doc.id, r.score, sn.1, sn.2⟩)

/-! ## Helper lemmas -/

lemma not_alnum_of_whitespace (c : Char) (h : c.isWhitespace = true) :
    c.isAlphanum = false := by
  simp only [Char.isWhitespace, Bool.or_eq_true, decide_eq_true_eq] at h
  rcases h with ((h | h) | h) | h <;> subst h <;> decide

lemma toLower_not_alnum_of_whitespace (c : Char) (h : c.isWhitespace = true) :
    (Char.toLower c).isAlphanum = false := by
  simp only [Char.isWhitespace, Bool.or_eq_true, decide_eq_true_eq] at h
  rcases h with ((h | h) | h) | h <;> subst h <;> decide

lemma runsGo_nil_of_no_alnum :
    ∀ s : List Char, (∀ c ∈ s, c.isAlphanum = false) → runsGo [] s = [] := by
  intro s
  induction s with
  | nil => intro _; rfl
  | cons c rest ih =>
    intro h
    have hc : c.isAlphanum = false := h c (List.mem_cons_self c rest)
    simp only [runsGo, hc, Bool.false_eq_true, if_false, List.isEmpty_nil, if_true]
    exact ih (fun x hx => h x (List.mem_cons_of_mem c hx))

lemma alnumRuns_nil_of_no_alnum :
    ∀ s : List Char, (∀ c ∈ s, c.isAlphanum = false) → alnumRuns s = [] :=
  fun s h => runsGo_nil_of_no_alnum s h

lemma runsGo_sound :
    ∀ (s cur : List Char), cur.all Char.isAlphanum = true →
      (runsGo cur s).Forall (fun t => t ≠ [] ∧ t.all Char.isAlphanum = true ∧
        ∃ pre post, cur.reverse ++ s = pre ++ (t ++ post)) := by
  intro s
  induction s with
  | nil =>
    intro cur hcur
    by_cases hc : cur.isEmpty
    · simp [runsGo, hc]
    · rw [show runsGo cur [] = [cur.reverse] by simp [runsGo, hc]]
      rw [List.forall_cons]
      refine ⟨⟨?_, ?_, [], [], by simp⟩, trivial⟩
      · intro he
        rw [List.isEmpty_iff] at hc
        exact hc (by simpa using congrArg List.reverse he)
      · rw [List.all_eq_true] at hcur ⊢
        intro x hx
        exact hcur x (List.mem_reverse.1 hx)
  | cons c rest ih =>
    intro cur hcur
    by_cases hc : c.isAlphanum = true
    · rw [show runsGo cur (c :: rest) = runsGo (c :: cur) rest by
        simp [runsGo, hc]]
      refine (ih (c :: cur) (by simp [hc, hcur])).imp ?_
      rintro t ⟨h1, h2, pre, post, hsp⟩
      refine ⟨h1, h2, pre, post, ?_⟩
      rw [← hsp, List.reverse_cons, List.append_assoc]
      rfl
    · by_cases hcur0 : cur.isEmpty
      · rw [show runsGo cur (c :: rest) = runsGo [] rest by
          simp [runsGo, hc, hcur0]]
        rw [List.isEmpty_iff] at hcur0
        subst hcur0
        refine (ih [] rfl).imp ?_
        rintro t ⟨h1, h2, pre, post, hsp⟩
        simp only [List.reverse_nil, List.nil_append] at hsp
        refine ⟨h1, h2, c :: pre, post, ?_⟩
        rw [List.reverse_nil, List.nil_append, hsp]
        rfl
      · rw [show runsGo cur (c :: rest) = cur.reverse :: runsGo [] rest by
          simp [runsGo, hc, hcur0]]
        rw [List.forall_cons]
        constructor
        · refine ⟨?_, ?_, [], c :: rest, by simp⟩
          · intro he
            rw [List.isEmpty_iff] at hcur0
            exact hcur0 (by simpa using congrArg List.reverse he)
          · rw [List.all_eq_true] at hcur ⊢
            intro x hx
            exact hcur x (List.mem_reverse.1 hx)
        · refine (ih [] rfl).imp ?_
          rintro t ⟨h1, h2, pre, post, hsp⟩
          simp only [List.reverse_nil, List.nil_append] at hsp
          refine ⟨h1, h2, cur.reverse ++ (c :: pre), post, ?_⟩
          rw [hsp, List.append_assoc]
          rfl

lemma alnumRuns_sound :
    ∀ s : List Char, (alnumRuns s).Forall
      (fun t => t ≠ [] ∧ t.all Char.isAlphanum = true ∧
        ∃ pre post, s = pre ++ (t ++ post)) := by
  intro s
  have h := runsGo_sound s [] rfl
  simpa [alnumRuns] using h

/-! ## Claim theorems -/

/-- C7: the tokenizer lowercases and splits on non-alphanumeric
boundaries, so every produced token is a nonempty all-alphanumeric
verbatim substring of the lowercased input (no stemming), every token of
length at most one is dropped, and empty or whitespace-only input yields
an empty sequence rather than an error (the tokenizer is a total
function).  The tokenizer is modelled from the spec, section 4.1; the
backend implementation is not in the source snapshot. -/
theorem claim_c7_tokenizer (s : List Char) :
    (tokenize s).Forall (fun t => 1 < t.length)
    ∧ (tokenize s).Forall (fun t => t.all Char.isAlphanum = true ∧
        ∃ pre post, lowerStr s = pre ++ (t ++ post))
    ∧ (s.all Char.isWhitespace = true → tokenize s = []) := by
  refine ⟨?_, ?_, ?_⟩
  · rw [List.forall_iff_forall_mem]
    intro t ht
    have := List.of_mem_filter ht
    simpa using this
  · rw [List.forall_iff_forall_mem]
    intro t ht
    have hmem := List.mem_of_mem_filter ht
    have hall := (List.forall_iff_forall_mem).1 (alnumRuns_sound (lowerStr s))
    exact ⟨(hall t hmem).2.1, (hall t hmem).2.2⟩
  · intro hws
    rw [List.all_eq_true] at hws
    unfold tokenize
    rw [alnumRuns_nil_of_no_alnum]
    · rfl
    · intro c hc
      rcases List.mem_map.1 hc with ⟨c0, hc0, rfl⟩
      exact toLower_not_alnum_of_whitespace c0 (hws c0 hc0)

/-- Witness for C7 at a whitespace-only input. -/
theorem claim_c7_witness : tokenize [' ', '\t'] = [] :=
  (claim_c7_tokenizer [' ', '\t']).2.2 (by decide)

/-- C8, counterexample: the result type declared in the frontend
(`SearchResult` in `src/frontend/src/types.ts`) has no `match_spans` field
— nor `document_id` or `score` fields under those names — so the claimed
shape `\x7bdocument_id, score, snippet, match_spans\x7d` does not hold for
the results delivered through the declared interface. -/
theorem claim_c8_counterexample :
    "match_spans" ∉ searchResultFields
    ∧ "document_id" ∉ searchResultFields
    ∧ "score" ∉ searchResultFields := by
  decide

/-- C8, amended: every element of the result sequence delivered through
the declared frontend interface has exactly the shape
`\x7bpdf_id, filename, confidence_score, snippet\x7d`; `match_spans` is
not among its fields, and highlighting is recomputed on the client from
the query and the snippet instead. -/
theorem claim_c8_result_shape_amended :
    searchResultFields = ["pdf_id", "filename", "confidence_score", "snippet"]
    ∧ "match_spans" ∉ searchResultFields
    ∧ "snippet" ∈ searchResultFields := by
  decide

/-- C9: `SearchResults.tsx` reads `result.sentiment_score`, a field absent
from the declared `SearchResult` interface; on every object that has
exactly the declared fields the read yields `undefined`, and
`formatSentiment` and `getSentimentClass` are total: whenever neither
`v >= 0.05` nor `v <= -0.05` holds — in particular on `undefined` — they
return Neutral, so rendering never fails. -/
theorem claim_c9_sentiment_total :
    "sentiment_score" ∉ searchResultFields
    ∧ formatSentiment none = "Neutral"
    ∧ getSentimentClass none = "neutral"
    ∧ (∀ obj : List (String × JSVal), obj.map Prod.fst = searchResultFields →
        jsRead obj "sentiment_score" = none
        ∧ sentimentBadgeText obj = "Neutral"
        ∧ sentimentBadgeClass obj = "neutral")
    ∧ (∀ v : Option ℚ, jsGe v (1/20) = false → jsLe v (-(1/20)) = false →
        formatSentiment v = "Neutral" ∧ getSentimentClass v = "neutral") := by
  refine ⟨by decide, rfl, rfl, ?_, ?_⟩
  · intro obj hobj
    have hnone : jsRead obj "sentiment_score" = none := by
      refine jsRead_eq_none_of_not_mem obj _ ?_
      rw [hobj]
      decide
    exact ⟨hnone, by simp [sentimentBadgeText, hnone, asNum, formatSentiment, jsGe, jsLe],
      by simp [sentimentBadgeClass, hnone, asNum, getSentimentClass, jsGe, jsLe]⟩
  · intro v h1 h2
    constructor
    · unfold formatSentiment
      rw [h1, h2]
      rfl
    · unfold getSentimentClass
      rw [h1, h2]
      rfl

/-- Witness for C9: a concrete object with exactly the declared fields
renders a Neutral badge, and a concrete in-between value is Neutral. -/
theorem claim_c9_witness :
    sentimentBadgeText
        [("pdf_id", JSVal.str "p1"), ("filename", JSVal.str "a.pdf"),
         ("confidence_score", JSVal.num (1/2)), ("snippet", JSVal.str "text")]
      = "Neutral"
    ∧ formatSentiment (some 0) = "Neutral" := by
  constructor
  · exact ((claim_c9_sentiment_total.2.2.2.1
      [("pdf_id", JSVal.str "p1"), ("filename", JSVal.str "a.pdf"),
       ("confidence_score", JSVal.num (1/2)), ("snippet", JSVal.str "text")]
      (by decide)).2.1)
  · exact (claim_c9_sentiment_total.2.2.2.2 (some 0) (by simp [jsGe]) (by simp [jsLe])).1

lemma clamp01_mem (x : ℚ) : 0 ≤ clamp01 x ∧ clamp01 x ≤ 1 :=
  ⟨le_max_left 0 _, max_le (by norm_num) (min_le_left 1 x)⟩

lemma clamp01_pos_iff (x : ℚ) : 0 < clamp01 x ↔ 0 < x := by
  unfold clamp01
  constructor
  · intro h
    by_contra hx
    push_neg at hx
    rw [min_eq_right (hx.trans (by norm_num)), max_eq_left hx] at h
    exact lt_irrefl 0 h
  · intro h
    exact lt_of_lt_of_le (lt_min (by norm_num) h) (le_max_right 0 _)

lemma mem_scoredList_score {log sqrt : ℚ → ℚ} {corpus : List Document}
    {q : List Char} {r : Ranked} (h : r ∈ scoredList log sqrt corpus q) :
    r.score = scoreDoc log sqrt corpus q r.doc := by
  rcases List.mem_map.1 h with ⟨p, _, rfl⟩
  rfl

lemma mem_rankDocs_iff {log sqrt : ℚ → ℚ} {corpus : List Document}
    {q : List Char} {r : Ranked} :
    r ∈ rankDocs log sqrt corpus q ↔ r ∈ candidates log sqrt corpus q :=
  (List.perm_insertionSort rankRel _).mem_iff

/-- C1: every score in the result sequence returned by the core search
lies in `[0,1]`, and the ranker assigns each retained document the clamp
to `[0,1]` of its cosine similarity against the query vector.  The core is
modelled from the spec (sections 4.2-4.3); the backend implementation is
not in the source snapshot. -/
theorem claim_c1_scores_in_unit_interval (log sqrt : ℚ → ℚ) (cfg : SnipConfig)
    (corpus : List Document) (q : List Char) :
    (coreSearch log sqrt cfg corpus q).Forall
        (fun res => 0 ≤ res.score ∧ res.score ≤ 1)
    ∧ (rankDocs log sqrt corpus q).Forall (fun r =>
        r.score = clamp01 (cosineSim sqrt (vocab corpus)
          (docVec log corpus r.doc) (queryVec log corpus q))) := by
  have hrank : ∀ r ∈ rankDocs log sqrt corpus q,
      r.score = clamp01 (cosineSim sqrt (vocab corpus)
        (docVec log corpus r.doc) (queryVec log corpus q)) := by
    intro r hr
    have hcand := mem_rankDocs_iff.1 hr
    have hmem := List.mem_of_mem_filter hcand
    exact mem_scoredList_score hmem
  constructor
  · rw [List.forall_iff_forall_mem]
    intro res hres
    rcases List.mem_map.1 hres with ⟨r, hr, rfl⟩
    have := hrank r hr
    simpa [this] using clamp01_mem _
  · exact List.forall_iff_forall_mem.2 hrank

/-- C3: the index builder computes the smoothed inverse document
frequency `log((1 + N) / (1 + df(t))) + 1` where `df(t)` counts the
documents containing `t` at least once, term frequency is occurrence
count over total token count, the document weight vector is elementwise
TF times IDF, and a zero-token document yields a zero vector.  The
builder is modelled from the spec (section 4.2); the backend
implementation is not in the source snapshot. -/
theorem claim_c3_tfidf_formula (log : ℚ → ℚ) (corpus : List Document)
    (d : Document) (t : Token) :
    idf log corpus t
        = log ((1 + (corpus.length : ℚ)) / (1 + (dfCount corpus t : ℚ))) + 1
    ∧ dfCount corpus t
        = (corpus.filter (fun d2 => decide (0 < (tokenize d2.text).count t))).length
    ∧ docVec log corpus d t = tf (tokenize d.text) t * idf log corpus t
    ∧ tf (tokenize d.text) t
        = (((tokenize d.text).count t : ℚ)) / (((tokenize d.text).length : ℚ))
    ∧ (tokenize d.text = [] → docVec log corpus d t = 0) := by
  refine ⟨rfl, ?_, rfl, rfl, ?_⟩
  · unfold dfCount
    rw [List.countP_eq_length_filter]
    congr 1
    apply List.filter_congr
    intro d2 _
    rw [show (tokenize d2.text).contains t = decide (t ∈ tokenize d2.text) from
      List.elem_eq_mem t (tokenize d2.text), decide_eq_decide]
    exact List.count_pos_iff.symm
  · intro h
    unfold docVec tf
    rw [h]
    simp

/-- Witness for C3 at a document whose text has no token of length
greater than one. -/
theorem claim_c3_witness :
    docVec (fun x => x) [] ⟨"d1", [' ', 'a']⟩ ['a', 'b'] = 0 :=
  (claim_c3_tfidf_formula (fun x => x) [] ⟨"d1", [' ', 'a']⟩ ['a', 'b']).2.2.2.2
    (by decide)

/-- C6: searching an empty corpus returns an empty result sequence, and a
query whose normalized token sequence is empty yields a zero query vector
and an empty result sequence; both are ordinary return values of the total
function `coreSearch`, not exceptions.  The core is modelled from the spec
(sections 4.2-4.3 and 7); the backend implementation is not in the source
snapshot. -/
theorem claim_c6_empty_corpus_and_query (log sqrt : ℚ → ℚ) (cfg : SnipConfig)
    (corpus : List Document) (q : List Char) :
    coreSearch log sqrt cfg [] q = []
    ∧ (tokenize q = [] →
        (∀ t : Token, queryVec log corpus q t = 0)
        ∧ coreSearch log sqrt cfg corpus q = []) := by
  constructor
  · rfl
  · intro h
    have hqv : ∀ t : Token, queryVec log corpus q t = 0 := by
      intro t
      unfold queryVec tf
      rw [h]
      simp
    refine ⟨hqv, ?_⟩
    have hdv : dotV (vocab corpus) (queryVec log corpus q)
        (queryVec log corpus q) = 0 := by
      unfold dotV
      apply List.sum_eq_zero
      intro x hx
      rcases List.mem_map.1 hx with ⟨t, _, rfl⟩
      rw [hqv t, mul_zero]
    have hcand : candidates log sqrt corpus q = [] := by
      unfold candidates
      rw [List.filter_eq_nil_iff]
      intro r hr
      have hsc := mem_scoredList_score hr
      rw [decide_eq_true_eq]
      intro h0
      rw [hsc] at h0
      unfold scoreDoc cosineSim at h0
      rw [if_pos (Or.inr hdv)] at h0
      rw [show clamp01 0 = 0 by unfold clamp01; norm_num] at h0
      exact lt_irrefl 0 h0
    unfold coreSearch rankDocs
    rw [hcand]
    rfl

/-- Witness for C6 at a query whose tokens are all of length one. -/
theorem claim_c6_witness :
    queryVec (fun x => x) [⟨"d1", ['f', 'o', 'x']⟩] [' ', 'a'] ['f', 'o', 'x'] = 0
    ∧ coreSearch (fun x => x) (fun x => x) ⟨50, 150⟩
        [⟨"d1", ['f', 'o', 'x']⟩] [' ', 'a'] = [] := by
  have h := (claim_c6_empty_corpus_and_query (fun x => x) (fun x => x) ⟨50, 150⟩
    [⟨"d1", ['f', 'o', 'x']⟩] [' ', 'a']).2 (by decide)
  exact ⟨h.1 ['f', 'o', 'x'], h.2⟩

/-- C2: the ranker's output is sorted by strictly descending score except
that equal scores keep the strictly increasing original corpus position
(stable tie-breaking), and the scored list enumerates exactly the corpus
documents in input order with their positions.  The ranker is modelled
from the spec (section 4.3); the backend implementation is not in the
source snapshot. -/
theorem claim_c2_sorted_stable (log sqrt : ℚ → ℚ) (corpus : List Document)
    (q : List Char) :
    (rankDocs log sqrt corpus q).Pairwise
        (fun a b => b.score < a.score ∨ (a.score = b.score ∧ a.idx < b.idx))
    ∧ (scoredList log sqrt corpus q).map Ranked.doc = corpus
    ∧ (scoredList log sqrt corpus q).map Ranked.idx = List.range corpus.length := by
  refine ⟨?_, ?_, ?_⟩
  · have hsorted : (rankDocs log sqrt corpus q).Pairwise rankRel :=
      List.sorted_insertionSort rankRel (candidates log sqrt corpus q)
    have hidx0 : (corpus.enum).Pairwise
        (fun p1 p2 : Nat × Document => p1.1 < p2.1) := by
      have h1 : (corpus.enum.map Prod.fst).Pairwise (fun a b : Nat => a < b) := by
        rw [show corpus.enum.map Prod.fst = List.range' 0 corpus.length from
          List.enumFrom_map_fst 0 corpus]
        exact List.pairwise_lt_range' 0 corpus.length
      exact List.pairwise_map.1 h1
    have hscored : (scoredList log sqrt corpus q).Pairwise
        (fun a b => a.idx < b.idx) := by
      unfold scoredList
      rw [List.pairwise_map]
      exact hidx0
    have hcand : (candidates log sqrt corpus q).Pairwise
        (fun a b => a.idx < b.idx) :=
      List.Pairwise.sublist (List.filter_sublist _) hscored
    have hne2 : (rankDocs log sqrt corpus q).Pairwise
        (fun a b => a.idx ≠ b.idx) := by
      have hperm := List.perm_insertionSort rankRel
        (candidates log sqrt corpus q)
      exact (hperm.pairwise_iff (fun h => Ne.symm h)).2
        (hcand.imp (fun h => Nat.ne_of_lt h))
    refine (hsorted.and hne2).imp ?_
    rintro a b ⟨hr, hab⟩
    rcases hr with h1 | ⟨he, hle⟩
    · exact Or.inl h1
    · exact Or.inr ⟨he, lt_of_le_of_ne hle hab⟩
  · unfold scoredList
    rw [List.map_map]
    exact List.enumFrom_map_snd 0 corpus
  · unfold scoredList
    rw [List.map_map, List.range_eq_range']
    exact List.enumFrom_map_fst 0 corpus

/-- C4: a document appears in the ranker's result sequence exactly when
its cosine similarity against the query vector is strictly greater than 0;
documents with similarity 0 are simply absent from the returned list, not
errors.  The ranker is modelled from the spec (section 4.3); the backend
implementation is not in the source snapshot. -/
theorem claim_c4_positive_similarity_iff (log sqrt : ℚ → ℚ)
    (corpus : List Document) (q : List Char) (i : Fin corpus.length) :
    (∃ r ∈ rankDocs log sqrt corpus q, r.idx = i.val) ↔
      0 < cosineSim sqrt (vocab corpus) (docVec log corpus (corpus.get i))
            (queryVec log corpus q) := by
  constructor
  · rintro ⟨r, hr, hidx⟩
    have hc := mem_rankDocs_iff.1 hr
    unfold candidates at hc
    rw [List.mem_filter, decide_eq_true_eq] at hc
    obtain ⟨hmem2, hsc⟩ := hc
    unfold scoredList at hmem2
    rcases List.mem_map.1 hmem2 with ⟨p, hp, rfl⟩
    obtain ⟨a, b⟩ := p
    have ha : a = i.val := hidx
    subst ha
    have hb : b = corpus.get i := by
      have h1 := (List.mk_mem_enum_iff_getElem?).1 hp
      rw [List.getElem?_eq_getElem i.isLt] at h1
      exact (Option.some_inj.1 h1).symm
    subst hb
    exact (clamp01_pos_iff _).1 hsc
  · intro h0
    refine ⟨⟨i.val, corpus.get i, scoreDoc log sqrt corpus q (corpus.get i)⟩,
      ?_, rfl⟩
    rw [mem_rankDocs_iff]
    unfold candidates
    apply List.mem_filter.2
    constructor
    · unfold scoredList
      apply List.mem_map.2
      refine ⟨(i.val, corpus.get i), ?_, rfl⟩
      rw [List.mk_mem_enum_iff_getElem?]
      exact List.getElem?_eq_getElem i.isLt
    · rw [decide_eq_true_eq]
      exact (clamp01_pos_iff _).2 h0

lemma argmaxBy_aux (k : Nat × Nat → Nat) :
    ∀ (l : List (Nat × Nat)) (b : Nat × Nat),
      ∃ c, l.foldl (argmaxStep k) (some b) = some c
        ∧ (c = b ∨ c ∈ l) ∧ k b ≤ k c ∧ ∀ p ∈ l, k p ≤ k c := by
  intro l
  induction l with
  | nil =>
    intro b
    exact ⟨b, rfl, Or.inl rfl, le_refl _, by simp⟩
  | cons p rest ih =>
    intro b
    by_cases h : k b < k p
    · obtain ⟨c, hc, hmem, hkp, hall⟩ := ih p
      refine ⟨c, ?_, ?_, ?_, ?_⟩
      · rw [List.foldl_cons]
        rw [show argmaxStep k (some b) p = some p by
          show (if k b < k p then some p else some b) = some p
          rw [if_pos h]]
        exact hc
      · rcases hmem with rfl | hm
        · exact Or.inr (List.mem_cons_self c rest)
        · exact Or.inr (List.mem_cons_of_mem p hm)
      · exact (le_of_lt h).trans hkp
      · intro x hx
        rcases List.mem_cons.1 hx with rfl | hm
        · exact hkp
        · exact hall x hm
    · obtain ⟨c, hc, hmem, hkb, hall⟩ := ih b
      refine ⟨c, ?_, ?_, ?_, ?_⟩
      · rw [List.foldl_cons]
        rw [show argmaxStep k (some b) p = some b by
          show (if k b < k p then some p else some b) = some b
          rw [if_neg h]]
        exact hc
      · rcases hmem with rfl | hm
        · exact Or.inl rfl
        · exact Or.inr (List.mem_cons_of_mem p hm)
      · exact hkb
      · intro x hx
        rcases List.mem_cons.1 hx with rfl | hm
        · exact (Nat.not_lt.1 h).trans hkb
        · exact hall x hm

lemma argmaxBy_spec (k : Nat × Nat → Nat) (l : List (Nat × Nat)) (hl : l ≠ []) :
    ∃ c, argmaxBy k l = some c ∧ c ∈ l ∧ ∀ p ∈ l, k p ≤ k c := by
  cases l with
  | nil => exact absurd rfl hl
  | cons p rest =>
    obtain ⟨c, hc, hmem, hkp, hall⟩ := argmaxBy_aux k rest p
    refine ⟨c, ?_, ?_, ?_⟩
    · unfold argmaxBy
      rw [List.foldl_cons]
      exact hc
    · rcases hmem with rfl | hm
      · exact List.mem_cons_self c rest
      · exact List.mem_cons_of_mem p hm
    · intro x hx
      rcases List.mem_cons.1 hx with rfl | hm
      · exact hkp
      · exact hall x hm

/-- C5: with no case-insensitive whole-word occurrence of any query token
the snippet locator returns the first `fallback_length` characters of the
document (and no spans); otherwise it returns the window of the configured
radius around an occurrence of maximal density — the one with the most
other occurrences within the radius — clamped to the document bounds, with
the in-window spans translated to excerpt-local coordinates (the content
of `mkWindow`).  The locator is modelled from the spec (section 4.4); the
backend implementation is not in the source snapshot. -/
theorem claim_c5_snippet_locator (cfg : SnipConfig) (text : List Char)
    (tokens : List Token) :
    (occurrences text tokens = [] →
        locateSnippet cfg text tokens = (text.take cfg.fallback_length, []))
    ∧ (occurrences text tokens ≠ [] →
        ∃ c ∈ occurrences text tokens,
          (∀ p ∈ occurrences text tokens,
            occDensity cfg.context_radius (occurrences text tokens) p ≤
              occDensity cfg.context_radius (occurrences text tokens) c)
          ∧ locateSnippet cfg text tokens =
              mkWindow cfg.context_radius text (occurrences text tokens) c) := by
  constructor
  · intro h
    simp [locateSnippet, h, argmaxBy]
  · intro h
    obtain ⟨c, hc, hmem, hall⟩ := argmaxBy_spec
      (occDensity cfg.context_radius (occurrences text tokens))
      (occurrences text tokens) h
    refine ⟨c, hmem, hall, ?_⟩
    simp [locateSnippet, hc]

/-- Witness for C5 at a document containing no occurrence of the token. -/
theorem claim_c5_witness :
    locateSnippet ⟨2, 3⟩ ['h', 'e', 'l', 'l', 'o'] [['z', 'z']]
      = (['h', 'e', 'l'], []) :=
  (claim_c5_snippet_locator ⟨2, 3⟩ ['h', 'e', 'l', 'l', 'o'] [['z', 'z']]).1
    (by decide)

lemma isMatchTerm_iff (terms : List (List Char)) (p : List Char) :
    isMatchTerm terms p = true ↔ ∃ t ∈ terms, lowerStr p = lowerStr t := by
  simp [isMatchTerm, List.any_eq_true]

/-- C10: `highlightSnippet` splits the snippet into parts whose
concatenation is exactly the original snippet, returns the snippet
unchanged precisely when the query has no whitespace-delimited term of
length greater than one, and marks a part exactly when it is
case-insensitively equal to one of those terms (terms are matched
literally since the source escapes regex metacharacters). -/
theorem claim_c10_highlight (snippet query : List Char) :
    hlText (highlightSnippet snippet query) = snippet
    ∧ (highlightSnippet snippet query = HL.raw snippet ↔ queryTerms query = [])
    ∧ (∀ (p : List Char) (b : Bool),
        (p, b) ∈ hlParts (highlightSnippet snippet query) →
        (b = true ↔ ∃ t ∈ queryTerms query, lowerStr p = lowerStr t)) := by
  by_cases h : (queryTerms query).isEmpty
  · have hn : queryTerms query = [] := List.isEmpty_iff.1 h
    refine ⟨?_, ?_, ?_⟩
    · simp [highlightSnippet, h, hlText]
    · simp [highlightSnippet, h, hn]
    · intro p b hmem
      simp [highlightSnippet, h, hlParts] at hmem
  · have hn : queryTerms query ≠ [] := by
      intro he
      exact h (by simp [he])
    refine ⟨?_, ?_, ?_⟩
    · have hf := termSplitGo_flatten (queryTerms query) snippet 0 []
      simp only [List.drop_zero, List.reverse_nil, List.nil_append] at hf
      simp only [highlightSnippet, if_neg h, hlText, List.map_map]
      rw [show (Prod.fst ∘ fun p => (p, isMatchTerm (queryTerms query) p))
        = fun p : List Char => p from rfl]
      rw [show List.map (fun p : List Char => p)
          (termSplitGo (queryTerms query) 0 [] snippet)
        = termSplitGo (queryTerms query) 0 [] snippet from List.map_id _]
      exact hf
    · constructor
      · intro he
        exfalso
        simp [highlightSnippet, h] at he
      · intro he
        exact absurd he hn
    · intro p b hmem
      simp only [highlightSnippet, if_neg h, hlParts] at hmem
      rcases List.mem_map.1 hmem with ⟨p0, hp0, heq⟩
      rw [Prod.ext_iff] at heq
      obtain ⟨h1, h2⟩ := heq
      subst h1
      subst h2
      exact isMatchTerm_iff (queryTerms query) p0

/-- Witness for C10: the marked part "Fox" of a concrete snippet is
case-insensitively equal to a query term. -/
theorem claim_c10_witness :
    ∃ t ∈ queryTerms ['f', 'o', 'x'], lowerStr ['F', 'o', 'x'] = lowerStr t :=
  ((claim_c10_highlight ['F', 'o', 'x', ' ', 'r', 'u', 'n'] ['f', 'o', 'x']).2.2
    ['F', 'o', 'x'] true (by decide)).1 rfl
